import Mathlib

/-!
Shallow embedding of the `integrate_data` reconciliation pipeline
(`src/integrate_data/__init__.py`) of the pfe2025 repository.

Nullable pandas floats are modelled as `Option ℚ` (exact rationals in
place of IEEE floats: every claim is an algebraic identity that the code
computes by the corresponding arithmetic operation). `NaN` and SQL null
both map to `none`.  Pandas `fillna` / `combine_first` are modelled by
`orO`, `Series.mask(cond)` by `posOnly` for the `<= 0` masks, grouping by
`List.dedup` over the non-null keys, and the left merges by an explicit
`flatMap` that multiplies rows by matches exactly as `DataFrame.merge`
does.
-/

namespace IntegrateData

/-! ### Python string primitives -/

/-- Python `str.strip` / `str.split` whitespace class restricted to the
ASCII whitespace characters (space and `\t\n\v\f\r`). -/
def isPySpace (c : Char) : Bool :=
  c.toNat = 32 || (9 ≤ c.toNat && c.toNat ≤ 13)

/-- Python `str.upper`, character-wise, restricted to ASCII letters
(identity on every other character of the model). -/
def pyUpperChar (c : Char) : Char :=
  if 97 ≤ c.toNat ∧ c.toNat ≤ 122 then Char.ofNat (c.toNat - 32) else c

/-- Models Python `unicodedata.normalize("NFKC", ·)` as a character-wise
map over a representative compatibility table: U+00A0 (no-break space)
compat-normalizes to a plain space, fullwidth digits and fullwidth Latin
capitals fold to their ASCII forms; every other character is left as is.
Real NFKC is the identity on ASCII, which is the only property the
theorems below rely on. -/
def nfkcChar (c : Char) : List Char :=
  if c.toNat = 160 then [' ']
  else if 0xFF10 ≤ c.toNat ∧ c.toNat ≤ 0xFF19 then [Char.ofNat (c.toNat - 0xFEE0)]
  else if 0xFF21 ≤ c.toNat ∧ c.toNat ≤ 0xFF3A then [Char.ofNat (c.toNat - 0xFEE0)]
  else [c]

/-- Python `str.strip()`: drop leading and trailing whitespace. -/
def stripChars (l : List Char) : List Char :=
  ((l.dropWhile isPySpace).reverse.dropWhile isPySpace).reverse

/-! ### `normalize_sku` -/

/-- The character class of `SKU_KEEP = re.compile(r"[A-Z0-9]+")`. -/
def isSkuKeep (c : Char) : Bool :=
  decide ((65 ≤ c.toNat ∧ c.toNat ≤ 90) ∨ (48 ≤ c.toNat ∧ c.toNat ≤ 57))

/-- Character-level body of `normalize_sku`: NFKC, replace U+00A0 by a
space, strip, uppercase, then keep exactly the `[A-Z0-9]` characters
(`"".join(SKU_KEEP.findall(s))` concatenates all maximal `[A-Z0-9]+` runs,
i.e. filters the string to that class). -/
def normSkuChars (l : List Char) : List Char :=
  (((((l.map nfkcChar).flatten).map
      (fun c => if c.toNat = 160 then ' ' else c)
    |> stripChars).map pyUpperChar).filter isSkuKeep)

/-- `normalize_sku` from the source: `None` stays `None`, and a string
whose normalization is empty becomes `None` (`return s or None`). -/
def normalize_sku : Option String → Option String
  | none => none
  | some s =>
    let r := normSkuChars s.data
    if r = [] then none else some (String.mk r)

/-! ### Helper lemmas about the character pipeline -/

theorem isSkuKeep_range {c : Char} (h : isSkuKeep c = true) :
    (65 ≤ c.toNat ∧ c.toNat ≤ 90) ∨ (48 ≤ c.toNat ∧ c.toNat ≤ 57) := by
  simpa [isSkuKeep] using h

theorem toNat_le_of_keep {c : Char} (h : isSkuKeep c = true) : c.toNat ≤ 90 := by
  rcases isSkuKeep_range h with ⟨h1, h2⟩ | ⟨h1, h2⟩ <;> omega

theorem nfkcChar_of_keep {c : Char} (h : isSkuKeep c = true) : nfkcChar c = [c] := by
  have hle := toNat_le_of_keep h
  have h1 : ¬ (c.toNat = 160) := by omega
  have h2 : ¬ (0xFF10 ≤ c.toNat ∧ c.toNat ≤ 0xFF19) := by omega
  have h3 : ¬ (0xFF21 ≤ c.toNat ∧ c.toNat ≤ 0xFF3A) := by omega
  simp [nfkcChar, h1, h2, h3]

theorem pyUpperChar_of_keep {c : Char} (h : isSkuKeep c = true) : pyUpperChar c = c := by
  have hle := toNat_le_of_keep h
  have h1 : ¬ (97 ≤ c.toNat ∧ c.toNat ≤ 122) := by omega
  simp [pyUpperChar, h1]

theorem not_space_of_keep {c : Char} (h : isSkuKeep c = true) : isPySpace c = false := by
  have hge : 48 ≤ c.toNat := by
    rcases isSkuKeep_range h with ⟨h1, h2⟩ | ⟨h1, h2⟩ <;> omega
  simp [isPySpace]
  omega

theorem not_nbsp_of_keep {c : Char} (h : isSkuKeep c = true) : ¬ c.toNat = 160 := by
  rcases isSkuKeep_range h with ⟨h1, h2⟩ | ⟨h1, h2⟩ <;> omega

theorem join_map_nfkc_of_keep {l : List Char} (h : ∀ c ∈ l, isSkuKeep c = true) :
    (l.map nfkcChar).flatten = l := by
  induction l with
  | nil => rfl
  | cons c t ih =>
    have hc := h c (List.mem_cons_self c t)
    rw [List.map_cons, List.flatten_cons, nfkcChar_of_keep hc,
      ih (fun x hx => h x (List.mem_cons_of_mem c hx))]
    rfl

theorem map_id_of_all {f : Char → Char} {l : List Char}
    (h : ∀ c ∈ l, f c = c) : l.map f = l := by
  induction l with
  | nil => rfl
  | cons c t ih =>
    simp [h c (List.mem_cons_self c t), ih (fun x hx => h x (List.mem_cons_of_mem c hx))]

theorem dropWhile_eq_self_of_none {p : Char → Bool} {l : List Char}
    (h : ∀ c ∈ l, p c = false) : l.dropWhile p = l := by
  cases l with
  | nil => rfl
  | cons c t => simp [List.dropWhile, h c (List.mem_cons_self c t)]

theorem stripChars_eq_self_of_keep {l : List Char} (h : ∀ c ∈ l, isSkuKeep c = true) :
    stripChars l = l := by
  have h1 : ∀ c ∈ l, isPySpace c = false := fun c hc => not_space_of_keep (h c hc)
  have h2 : l.dropWhile isPySpace = l := dropWhile_eq_self_of_none h1
  have h3 : ∀ c ∈ l.reverse, isPySpace c = false := by
    intro c hc; exact h1 c (List.mem_reverse.mp hc)
  simp [stripChars, h2, dropWhile_eq_self_of_none h3]

theorem normSkuChars_fixed {l : List Char} (h : ∀ c ∈ l, isSkuKeep c = true) :
    normSkuChars l = l := by
  show (((((l.map nfkcChar).flatten).map
      (fun c => if c.toNat = 160 then ' ' else c)
    |> stripChars).map pyUpperChar).filter isSkuKeep) = l
  rw [join_map_nfkc_of_keep h]
  rw [map_id_of_all (f := fun c => if c.toNat = 160 then ' ' else c)
    (fun c hc => by simp [not_nbsp_of_keep (h c hc)])]
  show ((stripChars l).map pyUpperChar).filter isSkuKeep = l
  rw [stripChars_eq_self_of_keep h]
  rw [map_id_of_all (fun c hc => pyUpperChar_of_keep (h c hc))]
  exact List.filter_eq_self.mpr h

theorem mem_normSkuChars_keep {l : List Char} {c : Char}
    (h : c ∈ normSkuChars l) : isSkuKeep c = true := by
  unfold normSkuChars at h
  exact List.of_mem_filter h

/-- C8: SKU normalization is idempotent, and a SKU that normalizes to the
empty string is returned as null (so a `some` result is never empty). -/
theorem normalize_sku_idempotent (x : Option String) :
    normalize_sku (normalize_sku x) = normalize_sku x ∧
    ∀ r, normalize_sku x = some r → r ≠ "" := by
  constructor
  · cases x with
    | none => rfl
    | some s =>
      show normalize_sku (if normSkuChars s.data = [] then none
        else some (String.mk (normSkuChars s.data))) = _
      by_cases h : normSkuChars s.data = []
      · simp [h, normalize_sku]
      · have hfix : normSkuChars (String.mk (normSkuChars s.data)).data
            = normSkuChars s.data := by
          show normSkuChars (normSkuChars s.data) = normSkuChars s.data
          exact normSkuChars_fixed (fun c hc => mem_normSkuChars_keep hc)
        simp [h, normalize_sku, hfix]
  · intro r hr
    cases x with
    | none => simp [normalize_sku] at hr
    | some s =>
      by_cases h : normSkuChars s.data = []
      · simp [normalize_sku, h] at hr
      · simp only [normalize_sku, h, if_false, Option.some.injEq] at hr
        intro habs
        apply h
        have hd : (String.mk (normSkuChars s.data)).data = ("" : String).data := by
          rw [hr, habs]
        simpa using hd

/-- Witness for C8 at a concrete SKU containing punctuation, spacing and
lowercase characters. -/
theorem normalize_sku_idempotent_check :
    normalize_sku (normalize_sku (some " da-01 ")) = normalize_sku (some " da-01 ")
      ∧ ("DA01" : String) ≠ "" :=
  ⟨(normalize_sku_idempotent (some " da-01 ")).1,
   (normalize_sku_idempotent (some " da-01 ")).2 "DA01" (by decide)⟩

end IntegrateData

namespace IntegrateData

/-! ### `_to_number`: monetary-field normalization -/

/-- The character class kept by `NUM_RE = re.compile(r"[^\d,.\-]")`
(the regex deletes everything outside this class). -/
def keepNum (c : Char) : Bool :=
  c.isDigit || c = ',' || c = '.' || c = '-'

/-- `NUM_RE.sub("", x)`: delete every character outside `keepNum`. -/
def stripNonNum (l : List Char) : List Char :=
  l.filter keepNum

/-- `s.str.replace(",", ".")`: comma becomes the decimal point. -/
def commaToDot (l : List Char) : List Char :=
  l.map (fun c => if c = ',' then '.' else c)

/-- Value of a digit string, most significant first. -/
def digitsVal (l : List Char) : ℕ :=
  l.foldl (fun a c => 10 * a + (c.toNat - 48)) 0

/-- Splits an optional leading minus sign off the cleaned text. -/
def signSplit (l : List Char) : Bool × List Char :=
  if l.head? = some '-' then (true, l.tail) else (false, l)

/-- Integer part of an unsigned mantissa: the digits before the first
decimal point. -/
def intPart (m : List Char) : List Char :=
  m.takeWhile (fun c => c ≠ '.')

/-- Fractional part of an unsigned mantissa: the characters after the
first decimal point. -/
def fracPart (m : List Char) : List Char :=
  (m.dropWhile (fun c => c ≠ '.')).tail

/-- Python `float` acceptance on the post-regex alphabet: nonempty, the
integer and fractional parts are all digits (so at most one decimal
point and no interior sign), and at least one digit is present. -/
def mantissaOK (m : List Char) : Bool :=
  (!m.isEmpty) && (intPart m).all Char.isDigit && (fracPart m).all Char.isDigit
    && (!(intPart m).isEmpty || !(fracPart m).isEmpty)

/-- Numeric value of an accepted unsigned mantissa. -/
def mantissaVal (m : List Char) : ℚ :=
  (digitsVal (intPart m) : ℚ) + (digitsVal (fracPart m) : ℚ) / (10 : ℚ) ^ (fracPart m).length

/-- Models `pd.to_numeric(s, errors="coerce")` on strings drawn from the
post-regex alphabet (digits, `.` and `-`): an optional leading minus sign
followed by digits holding at most one decimal point and at least one
digit; anything else coerces to null. -/
def parseDecList (l : List Char) : Option ℚ :=
  if mantissaOK (signSplit l).2 then
    some ((if (signSplit l).1 then (-1 : ℚ) else 1) * mantissaVal (signSplit l).2)
  else none

/-- `_to_number` from the source, on a single cell: regex-strip, comma to
period, coerce to a number with null (`none`) on failure. -/
def toNumber (s : String) : Option ℚ :=
  parseDecList (commaToDot (stripNonNum s.data))

theorem dropWhile_head_false {p : Char → Bool} {l : List Char} {x : Char} {xs : List Char}
    (h : l.dropWhile p = x :: xs) : p x = false := by
  induction l with
  | nil => simp at h
  | cons c t ih =>
    by_cases hc : p c = true
    · rw [List.dropWhile_cons, if_pos hc] at h; exact ih h
    · rw [List.dropWhile_cons, if_neg hc] at h
      cases h; simpa using hc

theorem mantissa_chars {m : List Char} (h : mantissaOK m = true) :
    ∀ c ∈ m, (c.isDigit = true ∨ c = '.') := by
  intro c hc
  have h2 := h
  simp only [mantissaOK, Bool.and_eq_true] at h2
  obtain ⟨⟨⟨_, hip⟩, hfp⟩, _⟩ := h2
  have hsplit : m.takeWhile (fun c => c ≠ '.') ++ m.dropWhile (fun c => c ≠ '.') = m :=
    List.takeWhile_append_dropWhile _ _
  rw [← hsplit] at hc
  rcases List.mem_append.mp hc with hin | hin
  · left; exact List.all_eq_true.mp hip c hin
  · cases hrest : m.dropWhile (fun c => c ≠ '.') with
    | nil => rw [hrest] at hin; simp at hin
    | cons x xs =>
      have hx : x = '.' := by
        have := dropWhile_head_false hrest
        simpa using this
      rw [hrest] at hin
      rcases List.mem_cons.mp hin with h1 | h1
      · right; rw [h1, hx]
      · left
        have hxs : fracPart m = xs := by unfold fracPart; rw [hrest]; rfl
        rw [← hxs] at h1
        exact List.all_eq_true.mp hfp c h1

theorem parse_guard {l : List Char} {v : ℚ} (h : parseDecList l = some v) :
    mantissaOK (signSplit l).2 = true := by
  by_cases hg : mantissaOK (signSplit l).2 = true
  · exact hg
  · simp [parseDecList, hg] at h

theorem parse_sign_leading {l : List Char} {v : ℚ} (h : parseDecList l = some v) :
    ∀ c ∈ l.tail, c ≠ '-' := by
  intro c hc
  have hg := parse_guard h
  have hdig : c.isDigit = true ∨ c = '.' → c ≠ '-' := by
    rintro (hd | hd) <;> intro habs
    · rw [habs] at hd; simp [Char.isDigit] at hd
    · rw [habs] at hd; simp at hd
  by_cases hh : l.head? = some '-'
  · have hm : (signSplit l).2 = l.tail := by simp [signSplit, hh]
    exact hdig (mantissa_chars hg c (by rw [hm]; exact hc))
  · have hm : (signSplit l).2 = l := by simp [signSplit, hh]
    exact hdig (mantissa_chars hg c (by rw [hm]; exact List.mem_of_mem_tail hc))

theorem stripNonNum_idem (l : List Char) :
    stripNonNum (stripNonNum l) = stripNonNum l := by
  simp [stripNonNum, List.filter_filter]

theorem keepNum_commaToDot (c : Char) : keepNum (if c = ',' then '.' else c) = keepNum c := by
  by_cases hc : c = ',' <;> simp [hc, keepNum]

theorem stripNonNum_commaToDot (l : List Char) :
    stripNonNum (commaToDot l) = commaToDot (stripNonNum l) := by
  induction l with
  | nil => rfl
  | cons c t ih =>
    by_cases hk : keepNum c = true
    · have hk2 : keepNum (if c = ',' then '.' else c) = true := by
        rw [keepNum_commaToDot]; exact hk
      simp only [commaToDot, stripNonNum, List.map_cons, List.filter_cons, hk, hk2, if_true]
      exact congrArg _ (by simpa [stripNonNum, commaToDot] using ih)
    · have hk2 : keepNum (if c = ',' then '.' else c) = false := by
        rw [keepNum_commaToDot]; simpa using hk
      have hk3 : keepNum c = false := by simpa using hk
      simp only [commaToDot, stripNonNum, List.map_cons, List.filter_cons, hk2, hk3,
        Bool.false_eq_true, if_false]
      simpa [stripNonNum, commaToDot] using ih

theorem commaToDot_idem (l : List Char) :
    commaToDot (commaToDot l) = commaToDot l := by
  induction l with
  | nil => rfl
  | cons c t ih =>
    by_cases hc : c = ',' <;> simp [commaToDot, hc] at * <;> simpa [commaToDot] using ih

/-- C7: monetary normalization (i) keeps exactly digits, comma, period and
the minus sign, (ii) is insensitive to the characters it strips, (iii)
treats a comma exactly as a decimal period, (iv) yields null — never a
number — when the cleaned text fails to coerce, and (v) in any value it
does accept, a minus sign can only be the leading character. -/
theorem to_number_normalization (s : String) :
    (∀ c ∈ stripNonNum s.data, c.isDigit = true ∨ c = ',' ∨ c = '.' ∨ c = '-')
    ∧ toNumber (String.mk (stripNonNum s.data)) = toNumber s
    ∧ toNumber (String.mk (commaToDot s.data)) = toNumber s
    ∧ (parseDecList (commaToDot (stripNonNum s.data)) = none → toNumber s = none)
    ∧ (∀ v, toNumber s = some v → ∀ c ∈ (commaToDot (stripNonNum s.data)).tail, c ≠ '-') := by
  refine ⟨?_, ?_, ?_, ?_, ?_⟩
  · intro c hc
    have := List.of_mem_filter (p := keepNum) hc
    simpa [keepNum, or_assoc] using this
  · show parseDecList (commaToDot (stripNonNum (stripNonNum s.data))) = _
    rw [stripNonNum_idem]; rfl
  · show parseDecList (commaToDot (stripNonNum (commaToDot s.data))) = _
    rw [stripNonNum_commaToDot, commaToDot_idem]; rfl
  · intro h; exact h
  · intro v hv c hc
    exact parse_sign_leading (l := commaToDot (stripNonNum s.data)) hv c hc

/-- Witness for C7: strips currency text and spaces, parses a comma
decimal, returns null (not zero) on garbage, and keeps the sign leading. -/
theorem to_number_normalization_check :
    (∀ c ∈ stripNonNum ("EUR -1 234,50".data), c.isDigit = true ∨ c = ',' ∨ c = '.' ∨ c = '-')
    ∧ toNumber "abc" = none
    ∧ (∀ c ∈ (commaToDot (stripNonNum ("-1,5".data))).tail, c ≠ '-') :=
  ⟨(to_number_normalization "EUR -1 234,50").1,
   (to_number_normalization "abc").2.2.2.1 (by decide),
   (to_number_normalization "-1,5").2.2.2.2 (-(3/2))
     (by
       have hx : commaToDot (stripNonNum ("-1,5".data)) = ['-', '1', '.', '5'] := by decide
       have hss : signSplit ['-', '1', '.', '5'] = (true, ['1', '.', '5']) := by decide
       have hOK : mantissaOK ['1', '.', '5'] = true := by decide
       have hip : intPart ['1', '.', '5'] = ['1'] := by decide
       have hfp : fracPart ['1', '.', '5'] = ['5'] := by decide
       have h1 : digitsVal ['1'] = 1 := by decide
       have h5 : digitsVal ['5'] = 5 := by decide
       show parseDecList (commaToDot (stripNonNum ("-1,5".data))) = _
       rw [hx]
       simp only [parseDecList, hss, hOK, if_true, mantissaVal, hip, hfp, h1, h5,
         Option.some.injEq]
       norm_num)⟩

end IntegrateData

namespace IntegrateData

/-! ### Nullable-value combinators and the pandas median -/

/-- `fillna` / `combine_first` on a nullable value: keep the left value
when present, otherwise fall back to the right one. -/
def orO (a b : Option ℚ) : Option ℚ :=
  match a with
  | some v => some v
  | none => b

/-- `s.mask(s <= 0)`: a value that is zero or negative becomes null
(a null compares as not `<= 0` in pandas, so nulls pass through). -/
def posOnly (a : Option ℚ) : Option ℚ :=
  match a with
  | some v => if v ≤ 0 then none else some v
  | none => none

/-- Insertion into a sorted list (ascending). -/
def insertSorted (x : ℚ) : List ℚ → List ℚ
  | [] => [x]
  | y :: ys => if x ≤ y then x :: y :: ys else y :: insertSorted x ys

/-- Insertion sort, ascending. -/
def sortQ (l : List ℚ) : List ℚ := l.foldr insertSorted []

/-- Pandas `median` over the non-null values of a column: null on an
empty list, the middle element of the sorted list for odd length, the
mean of the two middle elements for even length. -/
def median (l : List ℚ) : Option ℚ :=
  let s := sortQ l
  let n := s.length
  if n = 0 then none
  else if n % 2 = 1 then some (s.getD (n / 2) 0)
  else some ((s.getD (n / 2 - 1) 0 + s.getD (n / 2) 0) / 2)

/-! ### `load_table_stock_snapshot` -/

/-- A row of the (cleaned, renamed) stock spreadsheet: nullable numeric
columns, nullable normalized SKU. -/
structure StockRow where
  sku : Option String
  stock_qty : Option ℚ
  purchase_value : Option ℚ
  retail_value : Option ℚ
deriving DecidableEq

/-- `df["stock_qty"].fillna(0)` followed by `df.loc[df["stock_qty"] < 0,
"stock_qty"] = 0`: a null or negative per-source quantity becomes 0. -/
def cleanQty (q : Option ℚ) : ℚ :=
  let v := q.getD 0
  if v < 0 then 0 else v

/-- `df[df["sku"].notna() & (df["sku"].astype(str).str.strip() != "")]`. -/
def keptStock (rows : List StockRow) : List StockRow :=
  rows.filter (fun r =>
    match r.sku with
    | none => false
    | some s => !(stripChars s.data).isEmpty)

/-- The distinct non-null SKU keys of a row list (`groupby("sku")`
groups each distinct non-null key once). -/
def stockKeys (rows : List StockRow) : List String :=
  (rows.filterMap (fun r => r.sku)).dedup

/-- One row of `stock_agg`: quantity summed, prices aggregated by median
over their non-null values. -/
structure StockAggRow where
  sku : String
  stock_qty : ℚ
  purchase_value : Option ℚ
  retail_value : Option ℚ
deriving DecidableEq

/-- The `groupby("sku").agg(...)` of `load_table_stock_snapshot`:
quantities (null/negative already forced to 0) are summed, prices are
medians of the group's non-null values. -/
def stockAgg (rows : List StockRow) : List StockAggRow :=
  let cl := keptStock rows
  (stockKeys cl).map (fun k =>
    let g := cl.filter (fun r => decide (r.sku = some k))
    { sku := k
      stock_qty := (g.map (fun r => cleanQty r.stock_qty)).sum
      purchase_value := median (g.filterMap (fun r => r.purchase_value))
      retail_value := median (g.filterMap (fun r => r.retail_value)) })

/-- A stored row of the `stock_snapshot` table (all columns coerced to
non-null numerics by the final `fillna(0)`). -/
structure SnapRow where
  sku : String
  stock_qty : ℚ
  purchase_value : ℚ
  retail_value : ℚ
  price_ht_from_sales : ℚ
  price_ht_priority : ℚ
  stock_value_ht : ℚ
deriving DecidableEq

/-- The price fallback of the snapshot: mask the three candidates with
`<= 0 -> null`, coalesce stock retail, then sales price, then purchase
price (`combine_first` chain), then `fillna(0)`. -/
def priceHtPriority (r s p : Option ℚ) : ℚ :=
  (orO (posOnly r) (orO (posOnly s) (posOnly p))).getD 0

/-- Builds the stored snapshot row from an aggregated stock row and the
(left-joined) sales price: masked price columns are refilled with 0 for
storage, `stock_value_ht = price_ht_priority * stock_qty`. -/
def mkSnapRow (a : StockAggRow) (ph : Option ℚ) : SnapRow :=
  { sku := a.sku
    stock_qty := a.stock_qty
    purchase_value := (posOnly a.purchase_value).getD 0
    retail_value := (posOnly a.retail_value).getD 0
    price_ht_from_sales := (posOnly ph).getD 0
    price_ht_priority := priceHtPriority a.retail_value ph a.purchase_value
    stock_value_ht := priceHtPriority a.retail_value ph a.purchase_value * a.stock_qty }

/-- `load_table_stock_snapshot` as a pure table function: aggregate the
stock rows by SKU, left-merge the `sales_agg` price on SKU (an unmatched
aggregate row keeps a null sales price; each matching sales row yields a
merged row, exactly as `DataFrame.merge` does), then valorize. -/
def snapshotRows (stockRows : List StockRow) (sales : List (String × Option ℚ)) :
    List SnapRow :=
  (stockAgg stockRows).flatMap (fun a =>
    let ms := sales.filter (fun p => decide (p.1 = a.sku))
    if ms.isEmpty then [mkSnapRow a none]
    else ms.map (fun p => mkSnapRow a p.2))

theorem mem_snapshotRows {stockRows : List StockRow} {sales : List (String × Option ℚ)}
    {row : SnapRow} (h : row ∈ snapshotRows stockRows sales) :
    ∃ a ph, a ∈ stockAgg stockRows ∧ row = mkSnapRow a ph := by
  unfold snapshotRows at h
  rw [List.mem_flatMap] at h
  obtain ⟨a, ha, hrow⟩ := h
  by_cases he : (sales.filter (fun p => decide (p.1 = a.sku))).isEmpty
  · rw [if_pos he] at hrow
    exact ⟨a, none, ha, List.mem_singleton.mp hrow⟩
  · rw [if_neg he] at hrow
    obtain ⟨p, _, hp⟩ := List.mem_map.mp hrow
    exact ⟨a, p.2, ha, hp.symm⟩

theorem posOnly_cases (x : Option ℚ) :
    posOnly x = none ∨ ∃ v, posOnly x = some v ∧ 0 < v := by
  cases x with
  | none => left; rfl
  | some v =>
    by_cases hv : v ≤ 0
    · left; simp [posOnly, hv]
    · right; exact ⟨v, by simp [posOnly, hv], by linarith⟩

theorem mkSnapRow_priority (a : StockAggRow) (ph : Option ℚ) :
    (mkSnapRow a ph).price_ht_priority =
      (if 0 < (mkSnapRow a ph).retail_value then (mkSnapRow a ph).retail_value
       else if 0 < (mkSnapRow a ph).price_ht_from_sales then (mkSnapRow a ph).price_ht_from_sales
       else if 0 < (mkSnapRow a ph).purchase_value then (mkSnapRow a ph).purchase_value
       else 0) := by
  show priceHtPriority a.retail_value ph a.purchase_value = _
  rcases posOnly_cases a.retail_value with h1 | ⟨v1, h1, hv1⟩
  · rcases posOnly_cases ph with h2 | ⟨v2, h2, hv2⟩
    · rcases posOnly_cases a.purchase_value with h3 | ⟨v3, h3, hv3⟩
      · simp [priceHtPriority, mkSnapRow, orO, h1, h2, h3]
      · simp [priceHtPriority, mkSnapRow, orO, h1, h2, h3, hv3]
    · rcases posOnly_cases a.purchase_value with h3 | ⟨v3, h3, hv3⟩
      · simp [priceHtPriority, mkSnapRow, orO, h1, h2, h3, hv2]
      · simp [priceHtPriority, mkSnapRow, orO, h1, h2, h3, hv2, hv3]
  · rcases posOnly_cases ph with h2 | ⟨v2, h2, hv2⟩
    · rcases posOnly_cases a.purchase_value with h3 | ⟨v3, h3, hv3⟩
      · simp [priceHtPriority, mkSnapRow, orO, h1, h2, h3, hv1]
      · simp [priceHtPriority, mkSnapRow, orO, h1, h2, h3, hv1, hv3]
    · rcases posOnly_cases a.purchase_value with h3 | ⟨v3, h3, hv3⟩
      · simp [priceHtPriority, mkSnapRow, orO, h1, h2, h3, hv1, hv2]
      · simp [priceHtPriority, mkSnapRow, orO, h1, h2, h3, hv1, hv2, hv3]

/-- C1: every stored row of the stock snapshot satisfies
`stock_value_ht = price_ht_priority * stock_qty`, and `price_ht_priority`
is the first strictly positive value among `[retail_value,
price_ht_from_sales, purchase_value]` (a masked-out candidate is stored
as 0), defaulting to 0 when none is positive. -/
theorem stock_snapshot_value (stockRows : List StockRow)
    (sales : List (String × Option ℚ)) (row : SnapRow)
    (h : row ∈ snapshotRows stockRows sales) :
    row.stock_value_ht = row.price_ht_priority * row.stock_qty
    ∧ row.price_ht_priority =
        (if 0 < row.retail_value then row.retail_value
         else if 0 < row.price_ht_from_sales then row.price_ht_from_sales
         else if 0 < row.purchase_value then row.purchase_value
         else 0) := by
  obtain ⟨a, ph, _, hrow⟩ := mem_snapshotRows h
  subst hrow
  exact ⟨rfl, mkSnapRow_priority a ph⟩

/-- Witness for C1 on a one-row stock table joined with a one-row sales
aggregate (retail is null, the sales price 7 wins, quantity 2). -/
theorem stock_snapshot_value_check :
    (mkSnapRow ⟨"A", 2, some 3, none⟩ (some 7)).stock_value_ht =
      (mkSnapRow ⟨"A", 2, some 3, none⟩ (some 7)).price_ht_priority *
        (mkSnapRow ⟨"A", 2, some 3, none⟩ (some 7)).stock_qty
    ∧ (mkSnapRow ⟨"A", 2, some 3, none⟩ (some 7)).price_ht_priority =
        (if 0 < (mkSnapRow ⟨"A", 2, some 3, none⟩ (some 7)).retail_value then
          (mkSnapRow ⟨"A", 2, some 3, none⟩ (some 7)).retail_value
         else if 0 < (mkSnapRow ⟨"A", 2, some 3, none⟩ (some 7)).price_ht_from_sales then
          (mkSnapRow ⟨"A", 2, some 3, none⟩ (some 7)).price_ht_from_sales
         else if 0 < (mkSnapRow ⟨"A", 2, some 3, none⟩ (some 7)).purchase_value then
          (mkSnapRow ⟨"A", 2, some 3, none⟩ (some 7)).purchase_value
         else 0) :=
  stock_snapshot_value [⟨some "A", some 2, some 3, none⟩] [("A", some 7)]
    (mkSnapRow ⟨"A", 2, some 3, none⟩ (some 7))
    (by
      have hd : (["A"] : List String).dedup = ["A"] := by decide
      have hagg : stockAgg [⟨some "A", some 2, some 3, none⟩] = [⟨"A", 2, some 3, none⟩] := by
        simp [stockAgg, keptStock, stockKeys, stripChars, isPySpace, median, sortQ,
          insertSorted, cleanQty, hd]
      unfold snapshotRows
      rw [hagg]
      simp)

/-- C10: every per-source stock quantity that is null or negative is
replaced by 0 before aggregation, and consequently every snapshot row has
`stock_qty >= 0`, and `stock_value_ht >= 0` whenever
`price_ht_priority >= 0`. -/
theorem stock_snapshot_qty_nonneg (stockRows : List StockRow)
    (sales : List (String × Option ℚ)) (row : SnapRow)
    (h : row ∈ snapshotRows stockRows sales) :
    (∀ q : Option ℚ, 0 ≤ cleanQty q)
    ∧ 0 ≤ row.stock_qty
    ∧ (0 ≤ row.price_ht_priority → 0 ≤ row.stock_value_ht) := by
  have hclean : ∀ q : Option ℚ, 0 ≤ cleanQty q := by
    intro q
    unfold cleanQty
    by_cases hv : q.getD 0 < 0
    · simp [hv]
    · simp [hv]; linarith [not_lt.mp hv]
  obtain ⟨a, ph, ha, hrow⟩ := mem_snapshotRows h
  have hq : 0 ≤ a.stock_qty := by
    unfold stockAgg at ha
    obtain ⟨k, _, hk⟩ := List.mem_map.mp ha
    have : a.stock_qty =
        (((keptStock stockRows).filter (fun r => decide (r.sku = some k))).map
          (fun r => cleanQty r.stock_qty)).sum := by
      rw [← hk]
    rw [this]
    exact List.sum_nonneg (by
      intro x hx
      obtain ⟨r, _, hr⟩ := List.mem_map.mp hx
      rw [← hr]; exact hclean _)
  subst hrow
  refine ⟨hclean, hq, fun hp => ?_⟩
  exact mul_nonneg hp hq

/-- Witness for C10 on a stock row with null quantity and negative retail
price. -/
theorem stock_snapshot_qty_nonneg_check :
    (∀ q : Option ℚ, 0 ≤ cleanQty q)
    ∧ 0 ≤ (mkSnapRow ⟨"B", 0, none, some (-4)⟩ none).stock_qty
    ∧ (0 ≤ (mkSnapRow ⟨"B", 0, none, some (-4)⟩ none).price_ht_priority →
        0 ≤ (mkSnapRow ⟨"B", 0, none, some (-4)⟩ none).stock_value_ht) :=
  stock_snapshot_qty_nonneg [⟨some "B", none, none, some (-4)⟩] []
    (mkSnapRow ⟨"B", 0, none, some (-4)⟩ none)
    (by
      have hd : (["B"] : List String).dedup = ["B"] := by decide
      have hagg : stockAgg [⟨some "B", none, none, some (-4)⟩] = [⟨"B", 0, none, some (-4)⟩] := by
        simp [stockAgg, keptStock, stockKeys, stripChars, isPySpace, median, sortQ,
          insertSorted, cleanQty, hd]
      unfold snapshotRows
      rw [hagg]
      simp)

end IntegrateData

namespace IntegrateData

/-! ### Sales-derived prices: `load_table_sales_agg` and the
`retail_from_sales` block of `main` -/

/-- A row of the (cleaned, renamed) sales spreadsheet. -/
structure SalesRow where
  sku : Option String
  quantity : Option ℚ
  net_wo_tax : Option ℚ
  net_w_tax : Option ℚ
deriving DecidableEq

/-- The per-row tax-exclusive price of `load_table_sales_agg`:
`price_ht_row = net_wo_tax`, and where that is null, `net_w_tax / 1.20`
(null if both are null). -/
def priceHtRow (r : SalesRow) : Option ℚ :=
  match r.net_wo_tax with
  | some v => some v
  | none => r.net_w_tax.map (fun w => w / (12/10))

/-- The distinct non-null SKU keys of the sales rows. -/
def salesKeys (rows : List SalesRow) : List String :=
  (rows.filterMap (fun r => r.sku)).dedup

/-- The rows of one SKU group. -/
def salesRowsFor (rows : List SalesRow) (k : String) : List SalesRow :=
  rows.filter (fun r => decide (r.sku = some k))

/-- `price_ht_from_sales` of `load_table_sales_agg`: the median over the
group of the per-row coalesced price (pandas median skips the null
rows). -/
def priceHtFromSales (rows : List SalesRow) (k : String) : Option ℚ :=
  median ((salesRowsFor rows k).filterMap priceHtRow)

/-- The `sales_agg` price column as a keyed table. -/
def salesAggTable (rows : List SalesRow) : List (String × Option ℚ) :=
  (salesKeys rows).map (fun k => (k, priceHtFromSales rows k))

/-- `retail_from_sales` of `main`: per-column medians first
(`groupby("sku").median()` of `net_wo_tax` and `net_w_tax`), then
`sales_price["net_wo_tax"].fillna(sales_price["net_w_tax"] / 1.20)`. -/
def retailFromSales (rows : List SalesRow) (k : String) : Option ℚ :=
  orO (median ((salesRowsFor rows k).filterMap (fun r => r.net_wo_tax)))
    ((median ((salesRowsFor rows k).filterMap (fun r => r.net_w_tax))).map
      (fun w => w / (12/10)))

/-- The `sales_price` table built in `main` (column `retail_from_sales`). -/
def salesPriceTable (rows : List SalesRow) : List (String × Option ℚ) :=
  (salesKeys rows).map (fun k => (k, retailFromSales rows k))

/-- Looking a SKU up in a keyed table (the value the left merge attaches
to a row carrying that SKU). -/
def lookupSku (tbl : List (String × Option ℚ)) (k : String) : Option (Option ℚ) :=
  (tbl.find? (fun p => decide (p.1 = k))).map Prod.snd

theorem lookupSku_map_keys (keys : List String) (f : String → Option ℚ) (k : String)
    (hk : k ∈ keys) :
    lookupSku (keys.map (fun k0 => (k0, f k0))) k = some (f k) := by
  induction keys with
  | nil => simp at hk
  | cons k0 rest ih =>
    by_cases he : k0 = k
    · subst he
      simp [lookupSku, List.find?]
    · have hk' : k ∈ rest := by
        rcases List.mem_cons.mp hk with h | h
        · exact absurd h.symm he
        · exact h
      have : lookupSku (rest.map (fun k0 => (k0, f k0))) k = some (f k) := ih hk'
      simpa [lookupSku, List.find?, he] using this

/-- C5 counterexample: for SKU "S" with sales rows `(net_wo_tax,
net_w_tax)` = `(10, null)`, `(null, 120)`, `(null, 120)`, the per-row
coalesce-then-median gives 100, but the `retail_from_sales` column that
`main` computes (and merges into the retry orders) coalesces per-column
medians and gives 10 — so the claimed per-row rule does not hold for the
sales-derived price used in the merge. -/
theorem sales_price_median_cex :
    retailFromSales
        [⟨some "S", some 1, some 10, none⟩,
         ⟨some "S", some 1, none, some 120⟩,
         ⟨some "S", some 1, none, some 120⟩] "S" = some 10
    ∧ median ((salesRowsFor
        [⟨some "S", some 1, some 10, none⟩,
         ⟨some "S", some 1, none, some 120⟩,
         ⟨some "S", some 1, none, some 120⟩] "S").filterMap priceHtRow) = some 100
    ∧ some (10 : ℚ) ≠ some (100 : ℚ) := by
  have h1 : (120 : ℚ) / (12/10) = 100 := by norm_num
  refine ⟨?_, ?_, by decide⟩
  · simp [retailFromSales, salesRowsFor, median, sortQ, insertSorted, orO]
  · simp [salesRowsFor, priceHtRow, h1]
    simp [median, sortQ, insertSorted]
    decide

/-- C5 amended: `price_ht_from_sales` in `sales_agg` does follow the
per-row rule — for every SKU of the sales data it is the median of the
per-row coalesced tax-exclusive price — but the `retail_from_sales`
column of `main` instead coalesces the per-column medians (median of the
non-null tax-exclusive nets, else median of the non-null tax-inclusive
nets divided by 1.20). -/
theorem sales_price_median_amended (rows : List SalesRow) (k : String)
    (hk : k ∈ salesKeys rows) :
    lookupSku (salesAggTable rows) k
      = some (median ((salesRowsFor rows k).filterMap priceHtRow))
    ∧ lookupSku (salesPriceTable rows) k
      = some (orO (median ((salesRowsFor rows k).filterMap (fun r => r.net_wo_tax)))
          ((median ((salesRowsFor rows k).filterMap (fun r => r.net_w_tax))).map
            (fun w => w / (12/10)))) :=
  ⟨lookupSku_map_keys _ (priceHtFromSales rows) k hk,
   lookupSku_map_keys _ (retailFromSales rows) k hk⟩

/-- Witness for the amended C5 at a two-row sales table. -/
theorem sales_price_median_amended_check :
    lookupSku (salesAggTable [⟨some "S", some 1, some 10, none⟩]) "S"
      = some (median ((salesRowsFor [⟨some "S", some 1, some 10, none⟩] "S").filterMap priceHtRow))
    ∧ lookupSku (salesPriceTable [⟨some "S", some 1, some 10, none⟩]) "S"
      = some (orO (median ((salesRowsFor [⟨some "S", some 1, some 10, none⟩] "S").filterMap
            (fun r => r.net_wo_tax)))
          ((median ((salesRowsFor [⟨some "S", some 1, some 10, none⟩] "S").filterMap
            (fun r => r.net_w_tax))).map (fun w => w / (12/10)))) :=
  sales_price_median_amended [⟨some "S", some 1, some 10, none⟩] "S" (by decide)

end IntegrateData

namespace IntegrateData

/-! ### The retry-order merge of `main` and `apply_business_rules` -/

/-- A cleaned retry-order row (normalized SKU, integer quantity, payload
price already divided by 1.20). -/
structure RetryRow where
  sku : Option String
  quantity : ℤ
  price_ht_payload : Option ℚ
deriving DecidableEq

/-- A row of `merged_df` right after
`retry_df.merge(stock_df, on="sku", how="left", indicator=True)`:
`matched` records `_merge == "both"`. -/
structure MergedRow where
  sku : Option String
  quantity : ℤ
  stock_qty : Option ℚ
  purchase_value : Option ℚ
  retail_value : Option ℚ
  matched : Bool
deriving DecidableEq

/-- The left merge of the retry orders against the (raw) stock reference:
each retry row is paired with every stock row of equal SKU, or with one
all-null row when no stock row matches — exactly the multiplicity of
`DataFrame.merge(..., how="left")`. -/
def leftMergeStock (retry : List RetryRow) (stock : List StockRow) : List MergedRow :=
  retry.flatMap (fun r =>
    let ms := stock.filter (fun s => decide (s.sku = r.sku))
    if ms.isEmpty then [⟨r.sku, r.quantity, none, none, none, false⟩]
    else ms.map (fun s => ⟨r.sku, r.quantity, s.stock_qty, s.purchase_value, s.retail_value, true⟩))

/-- The subsequent left merge of a keyed price table (such as
`sales_price`) onto already-merged rows. -/
def leftJoinPrice (rows : List MergedRow) (tbl : List (String × Option ℚ)) :
    List (MergedRow × Option ℚ) :=
  rows.flatMap (fun m =>
    let ms := tbl.filter (fun p => decide (some p.1 = m.sku))
    if ms.isEmpty then [(m, none)]
    else ms.map (fun p => (m, p.2)))

/-- C2 counterexample: one retry row and a stock reference containing two
rows with the same normalized SKU — the left join of `main` multiplies
the retry row, so the merged table has 2 rows, not 1. -/
theorem retry_merge_dedup_cex :
    (leftMergeStock [⟨some "A", 1, none⟩]
        [⟨some "A", some 1, none, none⟩, ⟨some "A", some 2, none, none⟩]).length = 2
    ∧ ([(⟨some "A", 1, none⟩ : RetryRow)]).length = 1
    ∧ (2 : ℕ) ≠ 1 := by decide

theorem filter_length_le_one_of_nodup_keys {tbl : List (String × Option ℚ)}
    (h : (tbl.map Prod.fst).Nodup) (sku : Option String) :
    (tbl.filter (fun p => decide (some p.1 = sku))).length ≤ 1 := by
  rw [← List.countP_eq_length_filter]
  cases sku with
  | none =>
    have : tbl.countP (fun p => decide (some p.1 = none)) = 0 := by
      rw [List.countP_eq_zero]
      intro p _
      simp
    omega
  | some t =>
    have h1 : tbl.countP (fun p => decide (some p.1 = some t))
        = (tbl.map Prod.fst).countP (fun k => decide (k = t)) := by
      rw [List.countP_map]
      apply List.countP_congr
      intro p _
      simp
    have h2 : (tbl.map Prod.fst).countP (fun k => decide (k = t))
        = (tbl.map Prod.fst).count t := by
      rw [List.count_eq_countP]
      apply List.countP_congr
      intro k _
      by_cases hk : k = t <;> simp [hk]
    rw [h1, h2]
    exact List.nodup_iff_count_le_one.mp h t

/-- C2 amended: the number of merged rows is the sum over retry rows of
`max 1 (number of stock rows with the same SKU)` — so a duplicate-SKU
stock row does multiply retry rows, because `main` joins the raw stock
table; only the sales-price reference (and the snapshot's own stock
aggregate) are deduplicated by SKU before joining, and a left join
against any SKU-unique keyed table preserves the row count. -/
theorem merge_multiplicity_amended (retry : List RetryRow) (stock : List StockRow)
    (ventes : List SalesRow) :
    (leftMergeStock retry stock).length
      = (retry.map (fun r => max 1 (stock.countP (fun s => decide (s.sku = r.sku))))).sum
    ∧ ((salesPriceTable ventes).map Prod.fst).Nodup
    ∧ ((stockAgg stock).map (fun a => a.sku)).Nodup
    ∧ (∀ (rows : List MergedRow) (tbl : List (String × Option ℚ)),
        (tbl.map Prod.fst).Nodup → (leftJoinPrice rows tbl).length = rows.length) := by
  have hfst : ∀ (ks : List String) (f : String → Option ℚ),
      (ks.map (fun k => (k, f k))).map Prod.fst = ks := by
    intro ks f
    induction ks with
    | nil => rfl
    | cons a t ih => simp only [List.map_cons, ih]
  refine ⟨?_, ?_, ?_, ?_⟩
  · unfold leftMergeStock
    rw [List.length_flatMap]
    congr 1
    apply List.map_congr_left
    intro r _
    dsimp only [Function.comp]
    by_cases he : (stock.filter (fun s => decide (s.sku = r.sku))).isEmpty
    · have h0 : stock.countP (fun s => decide (s.sku = r.sku)) = 0 := by
        rw [List.countP_eq_length_filter, List.isEmpty_iff.mp he]
        rfl
      rw [if_pos he, h0]
      simp
    · have hne : stock.filter (fun s => decide (s.sku = r.sku)) ≠ [] := by
        intro habs; rw [habs] at he; exact he rfl
      have hpos : 0 < (stock.filter (fun s => decide (s.sku = r.sku))).length :=
        List.length_pos.mpr hne
      rw [if_neg he, List.length_map, List.countP_eq_length_filter]
      omega
  · have : (salesPriceTable ventes).map Prod.fst = salesKeys ventes :=
      hfst _ (retailFromSales ventes)
    rw [this]
    exact List.nodup_dedup _
  · have hsku : ∀ (ks : List String) (g : String → StockAggRow),
        (∀ k, (g k).sku = k) → (ks.map g).map (fun a => a.sku) = ks := by
      intro ks g hg
      induction ks with
      | nil => rfl
      | cons a t ih => simp only [List.map_cons, ih, hg]
    have : (stockAgg stock).map (fun a => a.sku) = stockKeys (keptStock stock) :=
      hsku _ _ (fun k => rfl)
    rw [this]
    exact List.nodup_dedup _
  · intro rows tbl hn
    unfold leftJoinPrice
    rw [List.length_flatMap]
    induction rows with
    | nil => rfl
    | cons m t ih =>
      rw [List.map_cons, List.sum_cons, List.length_cons, ih]
      dsimp only [Function.comp]
      have hle := filter_length_le_one_of_nodup_keys hn m.sku
      by_cases he : (tbl.filter (fun p => decide (some p.1 = m.sku))).isEmpty
      · rw [if_pos he, List.length_singleton]
        omega
      · have hne : tbl.filter (fun p => decide (some p.1 = m.sku)) ≠ [] := by
          intro habs; rw [habs] at he; exact he rfl
        have hpos := List.length_pos.mpr hne
        rw [if_neg he, List.length_map]
        omega

/-- Witness for the amended C2 at a duplicated stock SKU and a SKU-unique
price table. -/
theorem merge_multiplicity_amended_check :
    (leftMergeStock [⟨some "B", 1, none⟩]
        [⟨some "B", some 1, none, none⟩, ⟨some "B", some 2, none, none⟩]).length
      = ([(⟨some "B", 1, none⟩ : RetryRow)].map
          (fun r => max 1 ([⟨some "B", some 1, none, none⟩,
            ⟨some "B", some 2, none, none⟩].countP
              (fun s => StockRow.sku s = r.sku)))).sum
    ∧ (leftJoinPrice [⟨some "B", 1, none, none, none, true⟩] [("B", some 5)]).length
      = [(⟨some "B", 1, none, none, none, true⟩ : MergedRow)].length :=
  ⟨(merge_multiplicity_amended [⟨some "B", 1, none⟩]
      [⟨some "B", some 1, none, none⟩, ⟨some "B", some 2, none, none⟩] []).1,
   (merge_multiplicity_amended [] [] []).2.2.2
      [⟨some "B", 1, none, none, none, true⟩] [("B", some 5)] (by decide)⟩

/-! ### The per-order-line price fallback of `main` -/

/-- The `retail_value` resolution of `main` (lines 654-670): start from
the stock `retail_value` carried by the merge, `fillna` with the
sales-derived price, then with the payload-derived price, then with the
purchase value.  `fillna` replaces only nulls. -/
def resolveRetailValue (stockRetail salesRetail payloadHt purchase : Option ℚ) : Option ℚ :=
  orO (orO (orO stockRetail salesRetail) payloadHt) purchase

/-- C3 counterexample: a stock retail price of 0 is selected by the
per-order-line chain even though a strictly positive sales-derived price
(50) exists later in the chain — `fillna` skips only nulls, so a zero or
negative candidate is not treated as missing there. -/
theorem price_chain_zero_cex :
    resolveRetailValue (some 0) (some 50) none none = some 0
    ∧ some (0 : ℚ) ≠ some (50 : ℚ)
    ∧ (0 : ℚ) < 50 := by
  refine ⟨rfl, by decide, by decide⟩

/-- C3 amended: the stock-snapshot chain does treat zero and negative
candidates as missing — it returns a strictly positive price whenever any
candidate is strictly positive, and never returns a negative price — but
the per-order-line `retail_value` chain keeps the first non-null
candidate regardless of sign, so a zero or negative stock value masks
positive candidates later in that chain. -/
theorem price_chain_zero_amended :
    (∀ r s p : Option ℚ,
      (0 < r.getD 0 ∨ 0 < s.getD 0 ∨ 0 < p.getD 0) → 0 < priceHtPriority r s p)
    ∧ (∀ r s p : Option ℚ, 0 ≤ priceHtPriority r s p)
    ∧ (∀ v : ℚ, v ≤ 0 → ∀ b c d : Option ℚ,
        resolveRetailValue (some v) b c d = some v) := by
  have hpos : ∀ x : Option ℚ, 0 < x.getD 0 → ∃ w, posOnly x = some w ∧ 0 < w := by
    intro x hx
    cases x with
    | none => simp at hx
    | some v =>
      refine ⟨v, ?_, by simpa using hx⟩
      have : ¬ v ≤ 0 := by simp at hx; linarith
      simp [posOnly, this]
  refine ⟨?_, ?_, ?_⟩
  · intro r s p hc
    rcases hc with hr | hs | hp
    · obtain ⟨w, hw, hw0⟩ := hpos r hr
      simpa [priceHtPriority, orO, hw] using hw0
    · obtain ⟨w, hw, hw0⟩ := hpos s hs
      rcases posOnly_cases r with h1 | ⟨v1, h1, hv1⟩
      · simpa [priceHtPriority, orO, h1, hw] using hw0
      · simpa [priceHtPriority, orO, h1] using hv1
    · obtain ⟨w, hw, hw0⟩ := hpos p hp
      rcases posOnly_cases r with h1 | ⟨v1, h1, hv1⟩
      · rcases posOnly_cases s with h2 | ⟨v2, h2, hv2⟩
        · simpa [priceHtPriority, orO, h1, h2, hw] using hw0
        · simpa [priceHtPriority, orO, h1, h2] using hv2
      · simpa [priceHtPriority, orO, h1] using hv1
  · intro r s p
    rcases posOnly_cases r with h1 | ⟨v1, h1, hv1⟩
    · rcases posOnly_cases s with h2 | ⟨v2, h2, hv2⟩
      · rcases posOnly_cases p with h3 | ⟨v3, h3, hv3⟩
        · simp [priceHtPriority, orO, h1, h2, h3]
        · simp [priceHtPriority, orO, h1, h2, h3]; linarith
      · simp [priceHtPriority, orO, h1, h2]; linarith
    · simp [priceHtPriority, orO, h1]; linarith
  · intro v _ b c d
    rfl

/-- Witness for the amended C3: a negative stock retail is skipped by the
snapshot chain (purchase price 8 wins) but kept by the per-order chain. -/
theorem price_chain_zero_amended_check :
    (0 : ℚ) < priceHtPriority (some (-5)) none (some 8)
    ∧ (0 : ℚ) ≤ priceHtPriority none none none
    ∧ resolveRetailValue (some (-5)) (some 8) none none = some (-5) :=
  ⟨price_chain_zero_amended.1 (some (-5)) none (some 8) (by
      right; right; decide),
   price_chain_zero_amended.2.1 none none none,
   price_chain_zero_amended.2.2 (-5) (by decide) (some 8) none none⟩

/-! ### `apply_business_rules` -/

/-- A merged row after `apply_business_rules` (with `is_valid_sku`
already set from the merge indicator in `main`). -/
structure RuledRow where
  sku : Option String
  quantity : ℤ
  is_valid_sku : Bool
  is_valid_qty : Bool
  is_valid : Bool
  error_reason : Option String
deriving DecidableEq

/-- `apply_business_rules` on one merged row: `is_valid_sku` is the merge
indicator (`_merge == "both"`), `is_valid_qty = quantity > 0`,
`is_valid` their conjunction, `error_reason` checks the SKU first. -/
def applyBusinessRules (m : MergedRow) : RuledRow :=
  { sku := m.sku
    quantity := m.quantity
    is_valid_sku := m.matched
    is_valid_qty := decide (0 < m.quantity)
    is_valid := m.matched && decide (0 < m.quantity)
    error_reason :=
      if m.matched = false then some "Invalid SKU"
      else if decide (0 < m.quantity) = false then some "Invalid Quantity"
      else none }

/-- The merged-and-ruled table of `main`. -/
def ruledRows (retry : List RetryRow) (stock : List StockRow) : List RuledRow :=
  (leftMergeStock retry stock).map applyBusinessRules

theorem mem_leftMergeStock_matched {retry : List RetryRow} {stock : List StockRow}
    {m : MergedRow} (h : m ∈ leftMergeStock retry stock) :
    m.matched = true ↔ m.sku ∈ stock.map (fun s => s.sku) := by
  unfold leftMergeStock at h
  rw [List.mem_flatMap] at h
  obtain ⟨r, _, hm⟩ := h
  by_cases he : (stock.filter (fun s => decide (s.sku = r.sku))).isEmpty
  · rw [if_pos he] at hm
    have hmr := List.mem_singleton.mp hm
    subst hmr
    simp only [Bool.false_eq_true, false_iff]
    intro habs
    obtain ⟨s, hs, hsk⟩ := List.mem_map.mp habs
    have : stock.filter (fun s => decide (s.sku = r.sku)) = [] := List.isEmpty_iff.mp he
    rw [List.filter_eq_nil_iff] at this
    exact this s hs (by simpa using hsk)
  · rw [if_neg he] at hm
    obtain ⟨s, hs, hsm⟩ := List.mem_map.mp hm
    subst hsm
    simp only [true_iff]
    exact List.mem_map.mpr ⟨s, List.mem_of_mem_filter hs,
      by simpa using List.of_mem_filter hs⟩

/-- C6: in every ruled merged row, `is_valid_sku` holds exactly when the
row's normalized SKU occurs in the stock reference table used for the
merge (membership, not price availability), `is_valid_qty` exactly when
the quantity is positive, `is_valid` is their conjunction, and
`error_reason` is "Invalid SKU" when the SKU is invalid (checked first),
else "Invalid Quantity" when the quantity is invalid, else null. -/
theorem business_rules_validity (retry : List RetryRow) (stock : List StockRow)
    (row : RuledRow) (h : row ∈ ruledRows retry stock) :
    (row.is_valid_sku = true ↔ row.sku ∈ stock.map (fun s => s.sku))
    ∧ (row.is_valid_qty = true ↔ 0 < row.quantity)
    ∧ row.is_valid = (row.is_valid_sku && row.is_valid_qty)
    ∧ row.error_reason =
        (if row.is_valid_sku = false then some "Invalid SKU"
         else if row.is_valid_qty = false then some "Invalid Quantity"
         else none) := by
  unfold ruledRows at h
  obtain ⟨m, hm, hrow⟩ := List.mem_map.mp h
  subst hrow
  refine ⟨?_, ?_, rfl, rfl⟩
  · exact mem_leftMergeStock_matched hm
  · simp [applyBusinessRules]

/-- Witness for C6 on a valid row (SKU present in stock, quantity 2). -/
theorem business_rules_validity_check :
    ((applyBusinessRules ⟨some "A", 2, some 1, none, none, true⟩).is_valid_sku = true
      ↔ (applyBusinessRules ⟨some "A", 2, some 1, none, none, true⟩).sku
          ∈ [(⟨some "A", some 1, none, none⟩ : StockRow)].map (fun s => s.sku))
    ∧ ((applyBusinessRules ⟨some "A", 2, some 1, none, none, true⟩).is_valid_qty = true
      ↔ 0 < (applyBusinessRules ⟨some "A", 2, some 1, none, none, true⟩).quantity)
    ∧ (applyBusinessRules ⟨some "A", 2, some 1, none, none, true⟩).is_valid
      = ((applyBusinessRules ⟨some "A", 2, some 1, none, none, true⟩).is_valid_sku
        && (applyBusinessRules ⟨some "A", 2, some 1, none, none, true⟩).is_valid_qty)
    ∧ (applyBusinessRules ⟨some "A", 2, some 1, none, none, true⟩).error_reason =
        (if (applyBusinessRules ⟨some "A", 2, some 1, none, none, true⟩).is_valid_sku = false
         then some "Invalid SKU"
         else if (applyBusinessRules ⟨some "A", 2, some 1, none, none, true⟩).is_valid_qty = false
         then some "Invalid Quantity"
         else none) :=
  business_rules_validity [⟨some "A", 2, none⟩] [⟨some "A", some 1, none, none⟩]
    (applyBusinessRules ⟨some "A", 2, some 1, none, none, true⟩) (by decide)

end IntegrateData

namespace IntegrateData

/-! ### `calculate_financials` -/

/-- The columns `calculate_financials` reads from one row. -/
structure FinRow where
  quantity : Option ℚ
  retail_value : Option ℚ
  retail_value_ttc : Option ℚ
deriving DecidableEq

/-- The three computed columns. -/
structure FinOut where
  total_ht : ℚ
  tva : ℚ
  total_ttc : ℚ
deriving DecidableEq

/-- The branch condition of `calculate_financials`:
`ht is None or ht.isna().all() or (ht.fillna(0) == 0).all()` — the
`retail_value` column is absent, or every entry is null or zero (an
all-null column also satisfies the third disjunct, which subsumes the
second). -/
def htMissing (hasRetail : Bool) (rows : List FinRow) : Bool :=
  !hasRetail || rows.all (fun r => decide (r.retail_value.getD 0 = 0))

/-- `calculate_financials` as a pure row-list function.  `hasRetail` /
`hasTtc` model whether the `retail_value` / `retail_value_ttc` columns
exist (`df.get` returning `None`).  The branch is chosen once for the
whole table: TTC inversion (or all zeros without a TTC column) when the
HT column is missing per `htMissing`, otherwise the forward HT
computation with null values filled with 0. -/
def calculate_financials (hasRetail hasTtc : Bool) (rows : List FinRow) : List FinOut :=
  if htMissing hasRetail rows then
    if hasTtc then
      rows.map (fun r =>
        let ttc := r.quantity.getD 0 * r.retail_value_ttc.getD 0
        let tva := ttc * (20 / 120)
        { total_ht := ttc - tva, tva := tva, total_ttc := ttc })
    else rows.map (fun _ => ⟨0, 0, 0⟩)
  else
    rows.map (fun r =>
      let ht := r.quantity.getD 0 * r.retail_value.getD 0
      let tva := ht * (20 / 100)
      { total_ht := ht, tva := tva, total_ttc := ht + tva })

/-- C4 counterexample: two rows, the first with a tax-exclusive price
(10) and the second with only a tax-inclusive price (12).  Because the
branch is chosen per column, the second row is computed on the HT path
with its null price as 0 and gets `total_ttc = 0`, not the claimed
`qty * price_ttc_unit = 12`. -/
theorem financials_per_row_cex :
    (calculate_financials true true
        [⟨some 1, some 10, none⟩, ⟨some 1, none, some 12⟩]).getD 1 ⟨1, 1, 1⟩
      = ⟨0, 0, 0⟩
    ∧ ((1 : ℚ) * 12 ≠ 0) := by
  constructor
  · have hm : htMissing true [⟨some 1, some 10, none⟩, ⟨some 1, none, some 12⟩] = false := by
      decide
    rw [calculate_financials, hm]
    show (⟨(1:ℚ) * 0, (1:ℚ) * 0 * (20/100), (1:ℚ) * 0 + (1:ℚ) * 0 * (20/100)⟩ : FinOut)
      = ⟨0, 0, 0⟩
    norm_num
  · norm_num

/-- C4 amended: the derivation path is chosen per call, not per row — the
TTC inversion applies to every row exactly when the `retail_value` column
is absent or everywhere null-or-zero (and a TTC column exists), the HT
path applies to every row otherwise (null prices counting as 0), all
three outputs are 0 when neither column is available, and in all cases
`total_ttc = total_ht + vat`, so exactly one derivation path is used per
row. -/
theorem financials_amended (hasRetail hasTtc : Bool) (rows : List FinRow)
    (i : ℕ) (r : FinRow) (o : FinOut)
    (hr : rows[i]? = some r)
    (ho : (calculate_financials hasRetail hasTtc rows)[i]? = some o) :
    o.total_ttc = o.total_ht + o.tva
    ∧ (htMissing hasRetail rows = false →
        o.total_ht = r.quantity.getD 0 * r.retail_value.getD 0
        ∧ o.tva = o.total_ht * (20 / 100))
    ∧ (htMissing hasRetail rows = true → hasTtc = true →
        o.total_ttc = r.quantity.getD 0 * r.retail_value_ttc.getD 0
        ∧ o.tva = o.total_ttc * (20 / 120)
        ∧ o.total_ht = o.total_ttc - o.tva)
    ∧ (htMissing hasRetail rows = true → hasTtc = false → o = ⟨0, 0, 0⟩) := by
  by_cases hm : htMissing hasRetail rows = true
  · rw [calculate_financials, if_pos hm] at ho
    cases hasTtc with
    | true =>
      rw [if_pos rfl] at ho
      simp only [List.getElem?_map, hr, Option.map_some', Option.some.injEq] at ho
      subst ho
      refine ⟨by ring, fun hf => absurd hm (by rw [hf]; simp), fun _ _ => ⟨rfl, rfl, rfl⟩,
        fun _ habs => by simp at habs⟩
    | false =>
      rw [if_neg (by simp)] at ho
      simp only [List.getElem?_map, hr, Option.map_some', Option.some.injEq] at ho
      subst ho
      refine ⟨by norm_num, fun hf => absurd hm (by rw [hf]; simp), fun _ habs => by simp at habs,
        fun _ _ => rfl⟩
  · rw [calculate_financials, if_neg hm] at ho
    simp only [List.getElem?_map, hr, Option.map_some', Option.some.injEq] at ho
    subst ho
    refine ⟨rfl, fun _ => ⟨rfl, rfl⟩, fun habs => absurd habs hm, fun habs => absurd habs hm⟩

/-- Witness for the amended C4 on a one-row table with quantity 2 and
tax-exclusive price 5 (HT path: 10 / 2 / 12). -/
theorem financials_amended_check :
    ((⟨10, 2, 12⟩ : FinOut).total_ttc = (⟨10, 2, 12⟩ : FinOut).total_ht + (⟨10, 2, 12⟩ : FinOut).tva)
    ∧ (htMissing true [⟨some 2, some 5, none⟩] = false →
        (⟨10, 2, 12⟩ : FinOut).total_ht
            = (⟨some 2, some 5, none⟩ : FinRow).quantity.getD 0 *
              (⟨some 2, some 5, none⟩ : FinRow).retail_value.getD 0
        ∧ (⟨10, 2, 12⟩ : FinOut).tva = (⟨10, 2, 12⟩ : FinOut).total_ht * (20 / 100))
    ∧ (htMissing true [⟨some 2, some 5, none⟩] = true → true = true →
        (⟨10, 2, 12⟩ : FinOut).total_ttc
            = (⟨some 2, some 5, none⟩ : FinRow).quantity.getD 0 *
              (⟨some 2, some 5, none⟩ : FinRow).retail_value_ttc.getD 0
        ∧ (⟨10, 2, 12⟩ : FinOut).tva = (⟨10, 2, 12⟩ : FinOut).total_ttc * (20 / 120)
        ∧ (⟨10, 2, 12⟩ : FinOut).total_ht = (⟨10, 2, 12⟩ : FinOut).total_ttc - (⟨10, 2, 12⟩ : FinOut).tva)
    ∧ (htMissing true [⟨some 2, some 5, none⟩] = true → true = false →
        (⟨10, 2, 12⟩ : FinOut) = ⟨0, 0, 0⟩) :=
  financials_amended true true [⟨some 2, some 5, none⟩] 0 ⟨some 2, some 5, none⟩ ⟨10, 2, 12⟩
    (by decide)
    (by
      have hm : htMissing true [⟨some 2, some 5, none⟩] = false := by decide
      rw [calculate_financials, hm]
      show some (⟨(2:ℚ) * 5, (2:ℚ) * 5 * (20/100), (2:ℚ) * 5 + (2:ℚ) * 5 * (20/100)⟩ : FinOut)
        = some (⟨10, 2, 12⟩ : FinOut)
      norm_num)

end IntegrateData

namespace IntegrateData

/-! ### The first-token SKU cut of `main`
(`.astype(str).str.strip().str.split().str[0]`) -/

/-- Python `str.split()` with no separator: split on runs of whitespace,
dropping empty fields.  `acc` holds the current (reversed) token. -/
def splitWsAux : List Char → List Char → List (List Char)
  | [], acc => if acc.isEmpty then [] else [acc.reverse]
  | c :: cs, acc =>
    if isPySpace c then
      if acc.isEmpty then splitWsAux cs [] else acc.reverse :: splitWsAux cs []
    else splitWsAux cs (c :: acc)

/-- The whitespace tokens of a character list. -/
def wsTokens (l : List Char) : List (List Char) := splitWsAux l []

/-- `.str.strip().str.split().str[0]` on one cell: none when the cell
holds no token (pandas stores `NaN` there). -/
def firstToken (s : String) : Option String :=
  ((wsTokens (stripChars s.data)).head?).map String.mk

/-- The SKU key the pipeline computes for a stock or sales cell: the
first-token cut of `main`, then `normalize_sku` from
`clean_and_normalize`.  A missing token is pandas `NaN`, which
`str()` renders as `"nan"` before normalization. -/
def pipelineSkuKey (s : String) : Option String :=
  normalize_sku (some ((firstToken s).getD "nan"))

theorem takeWhile_append_all {q : Char → Bool} {a : List Char} (b : List Char)
    (h : ∀ c ∈ a, q c = true) : (a ++ b).takeWhile q = a ++ b.takeWhile q := by
  induction a with
  | nil => rfl
  | cons c t ih =>
    have hc := h c (List.mem_cons_self c t)
    simp only [List.cons_append, List.takeWhile_cons, hc, if_true]
    rw [ih (fun x hx => h x (List.mem_cons_of_mem c hx))]

theorem takeWhile_all {q : Char → Bool} {a : List Char}
    (h : ∀ c ∈ a, q c = true) : a.takeWhile q = a := by
  have := takeWhile_append_all (q := q) [] h
  simpa using this

theorem dropWhile_append_of_ne_nil {p : Char → Bool} {a : List Char} (b : List Char)
    (h : a.dropWhile p ≠ []) : (a ++ b).dropWhile p = a.dropWhile p ++ b := by
  induction a with
  | nil => exact absurd rfl h
  | cons c t ih =>
    by_cases hc : p c = true
    · have h' : t.dropWhile p ≠ [] := by
        rwa [List.dropWhile_cons, if_pos hc] at h
      rw [List.cons_append, List.dropWhile_cons, List.dropWhile_cons, if_pos hc, if_pos hc]
      exact ih h'
    · rw [List.cons_append, List.dropWhile_cons, List.dropWhile_cons, if_neg hc, if_neg hc,
        List.cons_append]

theorem dropWhile_append_of_eq_nil {p : Char → Bool} {a : List Char} (b : List Char)
    (h : a.dropWhile p = []) : (a ++ b).dropWhile p = b.dropWhile p := by
  induction a with
  | nil => rfl
  | cons c t ih =>
    by_cases hc : p c = true
    · rw [List.dropWhile_cons, if_pos hc] at h
      rw [List.cons_append, List.dropWhile_cons, if_pos hc]
      exact ih h
    · rw [List.dropWhile_cons, if_neg hc] at h
      exact absurd h (by simp)

theorem splitWsAux_head_acc (cs : List Char) :
    ∀ acc : List Char, acc ≠ [] →
      (splitWsAux cs acc).head? = some (acc.reverse ++ cs.takeWhile (fun c => !isPySpace c)) := by
  induction cs with
  | nil =>
    intro acc hacc
    have : acc.isEmpty = false := by
      cases acc with
      | nil => exact absurd rfl hacc
      | cons x xs => rfl
    simp [splitWsAux, this]
  | cons c t ih =>
    intro acc hacc
    have hae : acc.isEmpty = false := by
      cases acc with
      | nil => exact absurd rfl hacc
      | cons x xs => rfl
    by_cases hc : isPySpace c = true
    · simp [splitWsAux, hc, hae, List.takeWhile_cons]
    · have hc' : isPySpace c = false := by simpa using hc
      have hrec := ih (c :: acc) (by simp)
      have hstep : splitWsAux (c :: t) acc = splitWsAux t (c :: acc) := by
        simp [splitWsAux, hc']
      rw [hstep, hrec]
      simp [List.takeWhile_cons, hc']

theorem wsTokens_head {c : Char} {cs : List Char} (hc : isPySpace c = false) :
    (wsTokens (c :: cs)).head? = some ((c :: cs).takeWhile (fun c => !isPySpace c)) := by
  show (splitWsAux (c :: cs) []).head? = _
  have h1 : splitWsAux (c :: cs) [] = splitWsAux cs [c] := by
    simp [splitWsAux, hc]
  rw [h1, splitWsAux_head_acc cs [c] (by simp)]
  simp [List.takeWhile_cons, hc]

theorem stripChars_around_space {t u : List Char} {d : Char}
    (h1 : ∀ c ∈ t, isPySpace c = false) (h2 : isPySpace d = true) (h3 : t ≠ []) :
    stripChars (t ++ d :: u) = t ∨ ∃ w, stripChars (t ++ d :: u) = t ++ d :: w := by
  unfold stripChars
  have hlead : (t ++ d :: u).dropWhile isPySpace = t ++ d :: u := by
    cases t with
    | nil => exact absurd rfl h3
    | cons c t' =>
      have hc := h1 c (List.mem_cons_self c t')
      simp [List.dropWhile_cons, hc]
  rw [hlead]
  have hrev : (t ++ d :: u).reverse = u.reverse ++ ([d] ++ t.reverse) := by
    simp
  rw [hrev]
  have htrev : t.reverse.dropWhile isPySpace = t.reverse :=
    dropWhile_eq_self_of_none (fun c hcmem => h1 c (List.mem_reverse.mp hcmem))
  by_cases hx : u.reverse.dropWhile isPySpace = []
  · left
    rw [dropWhile_append_of_eq_nil _ hx]
    have : ([d] ++ t.reverse).dropWhile isPySpace = t.reverse := by
      show (d :: t.reverse).dropWhile isPySpace = t.reverse
      rw [List.dropWhile_cons, if_pos h2, htrev]
    rw [this]
    simp
  · right
    refine ⟨(u.reverse.dropWhile isPySpace).reverse, ?_⟩
    rw [dropWhile_append_of_ne_nil _ hx]
    simp

/-- C9: before canonical SKU normalization, the pipeline keeps only the
substring before the first whitespace of a (stripped) cell — for every
cell of the form `t ++ d :: u` with `t` whitespace-free and nonempty and
`d` whitespace, the key is `normalize_sku t` — and at the example cell
`"DA001234 X"` this yields the join key `"DA001234"`, different from the
`"DA001234X"` produced by keep-only-alphanumerics normalization alone. -/
theorem sku_first_token_cut (t u : List Char) (d : Char)
    (h1 : ∀ c ∈ t, isPySpace c = false) (h2 : isPySpace d = true) (h3 : t ≠ []) :
    firstToken (String.mk (t ++ d :: u)) = some (String.mk t)
    ∧ pipelineSkuKey (String.mk (t ++ d :: u)) = normalize_sku (some (String.mk t))
    ∧ pipelineSkuKey "DA001234 X" = some "DA001234"
    ∧ normalize_sku (some "DA001234 X") = some "DA001234X"
    ∧ pipelineSkuKey "DA001234 X" ≠ normalize_sku (some "DA001234 X") := by
  have hft : firstToken (String.mk (t ++ d :: u)) = some (String.mk t) := by
    unfold firstToken
    show ((wsTokens (stripChars (t ++ d :: u))).head?).map String.mk = _
    have htk : ∀ c ∈ t, (fun c => !isPySpace c) c = true := by
      intro c hcmem; simp [h1 c hcmem]
    rcases stripChars_around_space h1 h2 h3 with hs | ⟨w, hs⟩
    · rw [hs]
      cases t with
      | nil => exact absurd rfl h3
      | cons c t' =>
        rw [wsTokens_head (h1 c (List.mem_cons_self c t'))]
        rw [takeWhile_all (fun x hx => by simp [h1 x hx])]
        rfl
    · rw [hs]
      cases t with
      | nil => exact absurd rfl h3
      | cons c t' =>
        rw [List.cons_append, wsTokens_head (h1 c (List.mem_cons_self c t')), ← List.cons_append]
        rw [takeWhile_append_all (d :: w) htk]
        have : (d :: w).takeWhile (fun c => !isPySpace c) = [] := by
          rw [List.takeWhile_cons]
          simp [h2]
        rw [this]
        simp
  refine ⟨hft, ?_, by decide, by decide, by decide⟩
  unfold pipelineSkuKey
  rw [hft]
  rfl

/-- Witness for C9 at the cell `"DA001234 X"` itself. -/
theorem sku_first_token_cut_check :
    firstToken (String.mk ("DA001234".data ++ ' ' :: "X".data)) = some (String.mk "DA001234".data)
    ∧ pipelineSkuKey "DA001234 X" ≠ normalize_sku (some "DA001234 X") :=
  ⟨(sku_first_token_cut "DA001234".data "X".data ' '
      (by decide) (by decide) (by decide)).1,
   (sku_first_token_cut "DA001234".data "X".data ' '
      (by decide) (by decide) (by decide)).2.2.2.2⟩

end IntegrateData
